import Mathlib

/-!
Verification of the hlbot real-time event synchronization engine
(`src/queue.ts`, `src/realtime.ts`) against its natural-language
specification.  The TypeScript code is shallowly embedded: classes
become structures with explicit state passing, JS numbers become `ℚ`
(or `Nat`/`Int` where the source only ever holds integers), nullable
fields become `Option`, and the persistence / upstream-feed side
effects become explicit lists of recorded calls on the state.
-/

namespace Hlbot

/-- An event as stored in the log: a payload together with the sequence
number assigned at append time (`{ ...evt, seq: nextSeq++ }`). -/
structure Seqed (α : Type) where
  seq : Nat
  payload : α
deriving DecidableEq, Repr

/-- Embedding of `EventQueue` from `src/queue.ts`: `capacity`, `buffer`
and `nextSeq` fields, parametric in the payload type. -/
structure EventQueue (α : Type) where
  capacity : Nat
  buffer : List (Seqed α)
  nextSeq : Nat
deriving DecidableEq, Repr

/-- Constructor `new EventQueue(capacity = 5000)`: `this.capacity = Math.max(100, capacity)`,
empty buffer, `nextSeq = 1`. -/
def EventQueue.make (α : Type) (capacity : Nat := 5000) : EventQueue α :=
  { capacity := max 100 capacity, buffer := [], nextSeq := 1 }

/-- Method `EventQueue.push`: attach `seq = nextSeq++`, append to the buffer, and
trim from the front (`splice(0, length - capacity)`) when the buffer
exceeds capacity.  Returns the sequenced event and the new queue state. -/
def EventQueue.push (q : EventQueue α) (evt : α) : Seqed α × EventQueue α :=
  let withSeq : Seqed α := { seq := q.nextSeq, payload := evt }
  let buf := q.buffer ++ [withSeq]
  let buf' := if buf.length > q.capacity then buf.drop (buf.length - q.capacity) else buf
  (withSeq, { q with buffer := buf', nextSeq := q.nextSeq + 1 })

/-- Method `EventQueue.listSince(sinceSeq, limit = 200)`: find the first buffered
event with `seq > sinceSeq` (`findIndex`), return `[]` when none, else the
slice of length `Math.max(1, Math.min(1000, limit))` starting there. -/
def EventQueue.listSince (q : EventQueue α) (sinceSeq : Int) (limit : Int := 200) :
    List (Seqed α) :=
  match q.buffer.findIdx? (fun e => decide ((e.seq : Int) > sinceSeq)) with
  | none => []
  | some startIdx => (q.buffer.drop startIdx).take (max 1 (min 1000 limit)).toNat

/-- Method `EventQueue.latestSeq()`: `nextSeq - 1`. -/
def EventQueue.latestSeq (q : EventQueue α) : Int :=
  (q.nextSeq : Int) - 1

/-- Method `EventQueue.reset()`: clear the buffer and restart sequencing at 1. -/
def EventQueue.reset (q : EventQueue α) : EventQueue α :=
  { q with buffer := [], nextSeq := 1 }

/-- Push a whole list of payloads in order, keeping only the final state. -/
def EventQueue.pushAll (q : EventQueue α) (evts : List α) : EventQueue α :=
  evts.foldl (fun q e => (q.push e).2) q

/-- The sequence numbers returned by a run of `push` calls, in call order. -/
def EventQueue.assignedSeqs (q : EventQueue α) : List α → List Nat
  | [] => []
  | e :: es => (q.push e).1.seq :: (q.push e).2.assignedSeqs es

/-- Fill side: `'B'` maps to buy, anything else to sell (`f?.side === 'B' ? 'buy' : 'sell'`). -/
inductive TradeSide | buy | sell
deriving DecidableEq, Repr

/-- Position side, as produced by `sideFromSize`. -/
inductive PosSide | long | short | flat
deriving DecidableEq, Repr

/-- Effect of a fill: `'open'` or `'close'`. -/
inductive Effect | open' | close
deriving DecidableEq, Repr

/-- Function `sideFromSize` from `src/realtime.ts`. -/
def sideFromSize (size : ℚ) : PosSide :=
  if size > 0 then .long else if size < 0 then .short else .flat

/-- The labels derived for one fill on the live path. -/
structure FillLabels where
  effect : Effect
  direction : PosSide
  action : String
deriving DecidableEq, Repr

/-- The per-fill derivation in `onUserEvents` (lines 213-230): signed delta
from the side, new position, effect, direction (with the flat fallback on
the raw delta) and the human-readable action label decision table.  The
numeric fields have already passed the `Number.isFinite` guard. -/
def deriveFill (side : TradeSide) (sz startPosition : ℚ) : FillLabels :=
  let delta : ℚ := if side = .buy then sz else -sz
  let newPos : ℚ := startPosition + delta
  let effect : Effect :=
    if |newPos| > |startPosition| then .open' else (if newPos = 0 then .close else .close)
  let direction : PosSide :=
    if sideFromSize newPos = .flat then
      (if delta > 0 then .long else (if delta < 0 then .short else .flat))
    else sideFromSize newPos
  let actionLabel : String :=
    if startPosition = 0 then (if delta > 0 then "Open Long" else "Open Short")
    else if startPosition > 0 then
      (if delta > 0 then "Increase Long"
       else (if newPos = 0 then "Close Long" else "Decrease Long"))
    else if startPosition < 0 then
      (if delta < 0 then "Increase Short"
       else (if newPos = 0 then "Close Short" else "Decrease Short"))
    else ""
  { effect := effect, direction := direction, action := actionLabel }

/-- The signed delta of a fill: `+size` for a buy, `-size` for a sell. -/
def fillDelta (side : TradeSide) (sz : ℚ) : ℚ :=
  if side = .buy then sz else -sz

/-- Structure `PositionSnapshot` from `src/realtime.ts`: signed size, nullable entry
price, liquidation price and leverage (non-finite upstream numbers were
already coerced to `none`, or `0` for size, by the parse step). -/
structure PositionSnapshot where
  size : ℚ
  entryPriceUsd : Option ℚ
  liquidationPriceUsd : Option ℚ
  leverage : Option ℚ
deriving DecidableEq, Repr

/-- The payload of a position `ChangeEvent` (everything but `seq`). -/
structure PositionEvent where
  at' : String
  address : String
  symbol : String
  size : ℚ
  side : PosSide
  entryPriceUsd : Option ℚ
  liquidationPriceUsd : Option ℚ
  leverage : Option ℚ
  pnlUsd : Option ℚ
deriving DecidableEq, Repr

/-- One `upsertCurrentPosition` call as recorded against durable storage. -/
structure UpsertRow where
  address : String
  symbol : String
  size : ℚ
  entryPriceUsd : Option ℚ
  liquidationPriceUsd : Option ℚ
  leverage : Option ℚ
  pnlUsd : Option ℚ
  updatedAt : String
deriving DecidableEq, Repr

/-- The mutable state of `RealtimeTracker` relevant to the reconciler and
priming paths, with persistence calls recorded as lists. -/
structure TrackerState where
  snapshots : String → Option (PositionSnapshot × String)
  q : EventQueue PositionEvent
  insertedEvents : List (Seqed PositionEvent)
  upserts : List UpsertRow
  primeInflight : String → Option Nat
  lastPrimeAt : String → Option Int
  pullCount : Nat

/-- PnL expression `(entry != null && mark != null) ? size * (mark - entry) : null`,
shared verbatim by `onClearinghouse`, `performPrime` and `getAllSnapshots`. -/
def computePnl (size : ℚ) (entry mark : Option ℚ) : Option ℚ :=
  match entry, mark with
  | some e, some m => some (size * (m - e))
  | _, _ => none

/-- The position event payload built by both the clearinghouse handler and
the priming path. -/
def positionEventPayload (addr updatedAt : String) (snapshot : PositionSnapshot)
    (pnl : Option ℚ) : PositionEvent :=
  { at' := updatedAt, address := addr, symbol := "BTC", size := snapshot.size,
    side := sideFromSize snapshot.size, entryPriceUsd := snapshot.entryPriceUsd,
    liquidationPriceUsd := snapshot.liquidationPriceUsd,
    leverage := snapshot.leverage, pnlUsd := pnl }

/-- The `upsertCurrentPosition` row built by both paths. -/
def upsertRowOf (addr updatedAt : String) (snapshot : PositionSnapshot)
    (pnl : Option ℚ) : UpsertRow :=
  { address := addr, symbol := "BTC", size := snapshot.size,
    entryPriceUsd := snapshot.entryPriceUsd,
    liquidationPriceUsd := snapshot.liquidationPriceUsd,
    leverage := snapshot.leverage, pnlUsd := pnl, updatedAt := updatedAt }

/-- Handler `onClearinghouse` (lines 151-188), from the already-parsed snapshot:
diff field-by-field against the stored snapshot; when anything differs (or
no snapshot exists) store the new snapshot, push a position event, record
the `insertEvent` and `upsertCurrentPosition` calls; otherwise do nothing. -/
def onClearinghouseParsed (st : TrackerState) (addr : String)
    (snapshot : PositionSnapshot) (now : String) (mark : Option ℚ) : TrackerState :=
  let changed : Bool :=
    match st.snapshots addr with
    | none => true
    | some (prev, _) =>
        decide (prev.size ≠ snapshot.size)
        || decide (prev.entryPriceUsd ≠ snapshot.entryPriceUsd)
        || decide (prev.liquidationPriceUsd ≠ snapshot.liquidationPriceUsd)
        || decide (prev.leverage ≠ snapshot.leverage)
  if changed then
    let pnl := computePnl snapshot.size snapshot.entryPriceUsd mark
    let pushed := st.q.push (positionEventPayload addr now snapshot pnl)
    { st with
      snapshots := fun a => if a = addr then some (snapshot, now) else st.snapshots a,
      q := pushed.2,
      insertedEvents := st.insertedEvents ++ [pushed.1],
      upserts := st.upserts ++ [upsertRowOf addr now snapshot pnl] }
  else st

/-- Method `performPrime` (lines 356-390), from the already-parsed snapshot of the
HTTP pull: store the snapshot, push a position event and record the
persistence calls — with no diff against the stored snapshot. -/
def performPrimeParsed (st : TrackerState) (addr : String)
    (snapshot : PositionSnapshot) (now : String) (mark : Option ℚ) : TrackerState :=
  let pnl := computePnl snapshot.size snapshot.entryPriceUsd mark
  let pushed := st.q.push (positionEventPayload addr now snapshot pnl)
  { st with
    snapshots := fun a => if a = addr then some (snapshot, now) else st.snapshots a,
    q := pushed.2,
    insertedEvents := st.insertedEvents ++ [pushed.1],
    upserts := st.upserts ++ [upsertRowOf addr now snapshot pnl] }

/-- What a `primeFromHttp` caller observes: the pending in-flight task
(identified by the pull it started) or the immediately-resolved no-op of
the rate-limit early return. -/
inductive PrimeOutcome
  | pending (id : Nat)
  | resolvedNoop
deriving DecidableEq, Repr

/-- Options object of `primeFromHttp` `{ force = true, minIntervalMs = 0 }`. -/
structure PrimeOpts where
  force : Bool := true
  minIntervalMs : Int := 0
deriving DecidableEq, Repr

/-- Method `primeFromHttp` (lines 320-334): return the in-flight task when one
exists; else honour the rate limit (`!force && minIntervalMs > 0` and the
minimum interval since `lastPrimeAt` not yet elapsed → resolved no-op);
else start a new pull (`performPrime`), recording it in `primeInflight`.
Starting the task is counted in `pullCount`. -/
def primeFromHttp (st : TrackerState) (addr : String) (opts : PrimeOpts)
    (now : Int) : PrimeOutcome × TrackerState :=
  match st.primeInflight addr with
  | some t => (.pending t, st)
  | none =>
    if opts.force = false ∧ opts.minIntervalMs > 0
        ∧ now - ((st.lastPrimeAt addr).getD 0) < opts.minIntervalMs then
      (.resolvedNoop, st)
    else
      (.pending st.pullCount,
        { st with
          primeInflight := fun a => if a = addr then some st.pullCount
                                    else st.primeInflight a,
          pullCount := st.pullCount + 1 })

/-- The `.finally` of the priming task: record the attempt timestamp and
clear the in-flight entry. -/
def primeSettle (st : TrackerState) (addr : String) (now : Int) : TrackerState :=
  { st with
    lastPrimeAt := fun a => if a = addr then some now else st.lastPrimeAt a,
    primeInflight := fun a => if a = addr then none else st.primeInflight a }

/-- A concrete snapshot used for the closed instances below. -/
def snapA : PositionSnapshot :=
  { size := 3, entryPriceUsd := some 50000, liquidationPriceUsd := none,
    leverage := some 10 }

/-- A concrete tracker state storing `snapA` for address `"0xabc"`. -/
def stA : TrackerState :=
  { snapshots := fun a => if a = "0xabc" then some (snapA, "t1") else none,
    q := EventQueue.make PositionEvent 100,
    insertedEvents := [], upserts := [],
    primeInflight := fun _ => none, lastPrimeAt := fun _ => none,
    pullCount := 0 }

/-- A concrete tracker state with nothing in flight, to instantiate the
coalescing theorem. -/
def stB : TrackerState :=
  { snapshots := fun _ => none,
    q := EventQueue.make PositionEvent 100,
    insertedEvents := [], upserts := [],
    primeInflight := fun _ => none, lastPrimeAt := fun _ => none,
    pullCount := 0 }

/-- Structure `TradeRow` from `src/queue.ts`: the ISO `time` string is modelled by its
parsed epoch-milliseconds value (`new Date(t.time).getTime()`), so the sort
comparator reads it directly.  Runtime rows may also carry a `hash` field
accessed through the `any` cast in `tradeKey`. -/
structure TradeRow where
  id : Int
  time : Int
  address : String
  action : String
  size : ℚ
  startPosition : Option ℚ
  price : ℚ
  closedPnl : Option ℚ
  tx : Option String := none
  hash : Option String := none
deriving DecidableEq, Repr

/-- The shape `tradeKey` actually reads from its `Partial<TradeRow>`
argument: every field may be absent. -/
structure TradeRowLoose where
  id : Option Int := none
  time : Option Int := none
  address : Option String := none
  size : Option ℚ := none
  price : Option ℚ := none
  tx : Option String := none
  hash : Option String := none
deriving DecidableEq, Repr

/-- The derived identity key.  `tx` and `hash` both render as a `tx:`-prefixed
string in the source, so they share a constructor; the `id:` and
`time:...|addr:...|size:...|price:...` renderings are kept apart by their
prefixes. -/
inductive TradeKey
  | txKey (s : String)
  | idKey (n : Int)
  | compKey (time : Option Int) (addr : Option String) (size : Option ℚ) (price : Option ℚ)
deriving DecidableEq, Repr

/-- JS truthiness for an optional string: present and non-empty. -/
def truthy : Option String → Option String
  | some s => if s = "" then none else some s
  | none => none

/-- Function `tradeKey` from `src/queue.ts`: prefer a truthy `tx`, else a truthy
`hash`, else a non-null `id`, else the composite of time, address, size
and price. -/
def tradeKeyLoose (t : TradeRowLoose) : TradeKey :=
  match truthy t.tx with
  | some s => .txKey s.toLower
  | none =>
    match truthy t.hash with
    | some s => .txKey s.toLower
    | none =>
      match t.id with
      | some i => .idKey i
      | none => .compKey t.time t.address t.size t.price

/-- A full `TradeRow` viewed as the partial row `tradeKey` receives. -/
def TradeRow.toLoose (t : TradeRow) : TradeRowLoose :=
  { id := some t.id, time := some t.time, address := some t.address,
    size := some t.size, price := some t.price, tx := t.tx, hash := t.hash }

/-- The identity key of a full trade row. -/
def tradeKey (t : TradeRow) : TradeKey :=
  tradeKeyLoose t.toLoose

/-- The body of the `for (const t of incoming)` loop of `mergeTrades`:
keep each incoming row whose key is not yet in `seen`, extending `seen`. -/
def dedupAdditions (seen : List TradeKey) : List TradeRow → List TradeRow
  | [] => []
  | t :: ts =>
      if tradeKey t ∈ seen then dedupAdditions seen ts
      else t :: dedupAdditions (tradeKey t :: seen) ts

/-- The `merged.sort((a,b) => ...)` comparator: descending by parsed time,
ties broken descending by id. -/
def tradeCmp (a b : TradeRow) : Int :=
  if a.time ≠ b.time then b.time - a.time else b.id - a.id

/-- Whether `a` may precede `b` in the sorted output (comparator result `≤ 0`). -/
def tradeLe (a b : TradeRow) : Bool :=
  decide (tradeCmp a b ≤ 0)

/-- Function `mergeTrades` from `src/queue.ts`: collect incoming rows whose derived
key is unseen; when nothing is new return a copy of `existing`, otherwise
sort the concatenation with the descending (time, id) comparator
(`Array.prototype.sort` is stable, modelled by `List.mergeSort`). -/
def mergeTrades (existing incoming : List TradeRow) : List TradeRow :=
  let seen := existing.map tradeKey
  let additions := dedupAdditions seen incoming
  if additions = [] then existing
  else (existing ++ additions).mergeSort tradeLe

/-- A concrete existing row for the merge witness. -/
def rowX : TradeRow :=
  { id := 1, time := 1000, address := "a", action := "Buy", size := 1,
    startPosition := some 0, price := 100, closedPnl := none }

/-- A concrete incoming row for the merge witness. -/
def rowY : TradeRow :=
  { id := 2, time := 2000, address := "b", action := "Sell", size := 2,
    startPosition := none, price := 200, closedPnl := some 5, tx := some "0xAB" }

/-- A small concrete queue with a sorted buffer, for the `listSince`
witnesses. -/
def qC : EventQueue Unit :=
  { capacity := 100,
    buffer := [⟨1, ()⟩, ⟨2, ()⟩, ⟨3, ()⟩],
    nextSeq := 4 }

set_option maxRecDepth 10000

theorem EventQueue.push_nextSeq (q : EventQueue α) (e : α) :
    (q.push e).2.nextSeq = q.nextSeq + 1 := rfl

theorem EventQueue.push_seq (q : EventQueue α) (e : α) :
    (q.push e).1.seq = q.nextSeq := rfl

theorem EventQueue.assignedSeqs_eq_range' (q : EventQueue α) (es : List α) :
    q.assignedSeqs es = List.range' q.nextSeq es.length := by
  induction es generalizing q with
  | nil => rfl
  | cons e es ih =>
      simp [EventQueue.assignedSeqs, List.range'_succ, ih, EventQueue.push]

theorem chain'_lt_range' (s n : Nat) :
    List.Chain' (· < ·) (List.range' s n) := by
  induction n generalizing s with
  | zero => simp
  | succ n ih =>
      rw [List.range'_succ]
      cases n with
      | zero => simp
      | succ m =>
          rw [List.range'_succ]
          exact List.Chain'.cons (Nat.lt_succ_self s) (by rw [← List.range'_succ]; exact ih (s+1))

theorem EventQueue.push_capacity (q : EventQueue α) (e : α) :
    (q.push e).2.capacity = q.capacity := rfl

theorem EventQueue.pushAll_capacity (es : List α) (q : EventQueue α) :
    (q.pushAll es).capacity = q.capacity := by
  induction es generalizing q with
  | nil => rfl
  | cons e es ih => exact ih (q.push e).2

/-- One `push` preserves the retained-window shape of the buffer: the
sequence numbers form a contiguous range ending just below `nextSeq`,
of length `min (previous length + 1) capacity`. -/
theorem EventQueue.push_spec (q : EventQueue α) (e : α) (s : Nat)
    (hmap : q.buffer.map Seqed.seq = List.range' s q.buffer.length)
    (hseq : q.nextSeq = s + q.buffer.length)
    (hlen : q.buffer.length ≤ q.capacity) :
    ∃ s', (q.push e).2.buffer.map Seqed.seq = List.range' s' (q.push e).2.buffer.length
      ∧ (q.push e).2.nextSeq = s' + (q.push e).2.buffer.length
      ∧ (q.push e).2.buffer.length = min (q.buffer.length + 1) q.capacity
      ∧ (q.push e).2.buffer.length ≤ q.capacity := by
  have hbufmap : (q.buffer ++ [({ seq := q.nextSeq, payload := e } : Seqed α)]).map Seqed.seq
      = List.range' s (q.buffer.length + 1) := by
    rw [List.map_append, hmap, List.range'_concat]
    simp [hseq, Nat.add_comm]
  have hpush : (q.push e).2.buffer = if q.buffer.length + 1 > q.capacity
      then (q.buffer ++ [({ seq := q.nextSeq, payload := e } : Seqed α)]).drop (q.buffer.length + 1 - q.capacity)
      else q.buffer ++ [({ seq := q.nextSeq, payload := e } : Seqed α)] := by
    simp [EventQueue.push]
  by_cases hcap : q.buffer.length + 1 > q.capacity
  · -- overflow: the oldest entry is trimmed from the front
    have hlen' : q.buffer.length = q.capacity := by omega
    have hb : (q.push e).2.buffer = (q.buffer ++ [({ seq := q.nextSeq, payload := e } : Seqed α)]).drop 1 := by
      rw [hpush, if_pos hcap, show q.buffer.length + 1 - q.capacity = 1 from by omega]
    have hlb : (q.push e).2.buffer.length = q.buffer.length := by
      rw [hb]; simp
    have hmap2 : ((q.buffer ++ [({ seq := q.nextSeq, payload := e } : Seqed α)]).drop 1).map Seqed.seq
        = List.range' (s + 1) q.buffer.length := by
      rw [List.map_drop, hbufmap, List.range'_succ]
      simp
    refine ⟨s + 1, ?_, ?_, ?_, ?_⟩
    · rw [hlb, hb]
      exact hmap2
    · rw [EventQueue.push_nextSeq, hlb]; omega
    · rw [hlb]; omega
    · rw [hlb]; omega
  · have hb : (q.push e).2.buffer = q.buffer ++ [({ seq := q.nextSeq, payload := e } : Seqed α)] := by
      rw [hpush, if_neg hcap]
    have hlb : (q.push e).2.buffer.length = q.buffer.length + 1 := by
      rw [hb]; simp
    refine ⟨s, ?_, ?_, ?_, ?_⟩
    · rw [hlb, hb]
      exact hbufmap
    · rw [EventQueue.push_nextSeq, hlb]; omega
    · rw [hlb]; omega
    · rw [hlb]; omega

/-- Iterating `push_spec` over a whole list of pushes. -/
theorem EventQueue.pushAll_spec (es : List α) (q : EventQueue α) (s : Nat)
    (hmap : q.buffer.map Seqed.seq = List.range' s q.buffer.length)
    (hseq : q.nextSeq = s + q.buffer.length)
    (hlen : q.buffer.length ≤ q.capacity) :
    ∃ s', (q.pushAll es).buffer.map Seqed.seq
        = List.range' s' (q.pushAll es).buffer.length
      ∧ (q.pushAll es).nextSeq = s' + (q.pushAll es).buffer.length
      ∧ (q.pushAll es).buffer.length = min (q.buffer.length + es.length) q.capacity
      ∧ (q.pushAll es).nextSeq = q.nextSeq + es.length := by
  induction es generalizing q s with
  | nil =>
      refine ⟨s, hmap, hseq, ?_, ?_⟩
      · simp [EventQueue.pushAll]
        omega
      · simp [EventQueue.pushAll]
  | cons e es ih =>
      have hstep : q.pushAll (e :: es) = ((q.push e).2).pushAll es := rfl
      obtain ⟨s₁, h1, h2, h3, h4⟩ := q.push_spec e s hmap hseq hlen
      obtain ⟨s', g1, g2, g3, g4⟩ := ih (q.push e).2 s₁ h1 h2 h4
      rw [hstep]
      refine ⟨s', g1, g2, ?_, ?_⟩
      · rw [g3, h3, EventQueue.push_capacity]
        simp only [List.length_cons]
        omega
      · rw [g4, EventQueue.push_nextSeq]
        simp only [List.length_cons]
        omega

/-- Claim C2: with configured capacity `c` and `N` pushes, the queue retains
exactly `min N (max 100 c)` events, namely the most recent ones: their
sequence numbers are the contiguous range ending at `N`.  In particular with
capacity 50 and 150 pushes, `listSince 0 200` returns exactly the 100 events
with sequence numbers 51 through 150. -/
theorem retention_min_capacity (α : Type) (c : Nat) (es : List α) :
    ((EventQueue.make α c).pushAll es).buffer.length = min es.length (max 100 c)
    ∧ ((EventQueue.make α c).pushAll es).buffer.map Seqed.seq
        = List.range' (es.length + 1 - min es.length (max 100 c)) (min es.length (max 100 c))
    ∧ (((EventQueue.make Unit 50).pushAll (List.replicate 150 ())).listSince 0 200).map Seqed.seq
        = List.range' 51 100 := by
  obtain ⟨s', h1, h2, h3, h4⟩ := (EventQueue.make α c).pushAll_spec es 1
    (by simp [EventQueue.make]) (by simp [EventQueue.make]) (by simp [EventQueue.make])
  have hlen : ((EventQueue.make α c).pushAll es).buffer.length = min es.length (max 100 c) := by
    rw [h3]; simp [EventQueue.make]
  have hmin : min es.length (max 100 c) ≤ es.length := min_le_left _ _
  have hseq2 : s' + min es.length (max 100 c) = 1 + es.length := by
    rw [← hlen, ← h2, h4]
    rfl
  have hs' : s' = es.length + 1 - min es.length (max 100 c) := by omega
  refine ⟨hlen, ?_, by decide⟩
  rw [h1, hlen, hs']

/-- Claim C1: every push on an `EventQueue` is assigned a sequence number
exactly one greater than the previous one (dense, strictly increasing,
starting at 1 on a fresh queue, never reused even across capacity-based
eviction), and after `reset()` the buffer is empty and the next push is
assigned sequence number 1. -/
theorem push_seq_dense_monotone_reset (α : Type) (c : Nat) (es : List α) (e : α) :
    (EventQueue.make α c).assignedSeqs es = List.range' 1 es.length
    ∧ List.Chain' (· < ·) ((EventQueue.make α c).assignedSeqs es)
    ∧ ((EventQueue.make α c).pushAll es).reset.buffer = []
    ∧ (((EventQueue.make α c).pushAll es).reset.push e).1.seq = 1 := by
  refine ⟨EventQueue.assignedSeqs_eq_range' _ es, ?_, rfl, rfl⟩
  rw [EventQueue.assignedSeqs_eq_range' _ es]
  exact chain'_lt_range' 1 es.length

theorem sideFromSize_eq_flat_iff (x : ℚ) : sideFromSize x = .flat ↔ x = 0 := by
  unfold sideFromSize
  split_ifs with h1 h2
  · constructor
    · intro h; cases h
    · intro hx; exact absurd hx (by linarith)
  · constructor
    · intro h; cases h
    · intro hx; exact absurd hx (by linarith)
  · constructor
    · intro _; linarith
    · intro _; rfl

theorem deriveFill_effect (side : TradeSide) (sz sp : ℚ) :
    (deriveFill side sz sp).effect
      = if |sp + fillDelta side sz| > |sp| then .open' else .close := by
  simp only [deriveFill, fillDelta]
  split_ifs <;> rfl

theorem deriveFill_direction (side : TradeSide) (sz sp : ℚ) :
    (deriveFill side sz sp).direction
      = if sp + fillDelta side sz = 0 then sideFromSize (fillDelta side sz)
        else sideFromSize (sp + fillDelta side sz) := by
  simp only [deriveFill, fillDelta]
  by_cases h0 : sp + (if side = TradeSide.buy then sz else -sz) = 0
  · rw [if_pos ((sideFromSize_eq_flat_iff _).mpr h0), if_pos h0]
    unfold sideFromSize
    rfl
  · rw [if_neg (fun hf => h0 ((sideFromSize_eq_flat_iff _).mp hf)), if_neg h0]

/-- Claim C3: for every fill on the live path, with `delta = +size` for a buy
and `-size` for a sell and `newPos = startPosition + delta`, the effect is
`'open'` exactly when `|newPos|` strictly exceeds `|startPosition|` (and
`'close'` otherwise, including the unchanged-magnitude case), and the
direction is the sign of `newPos`, falling back to the sign of `delta`
itself when `newPos` is zero. -/
theorem fill_effect_direction (side : TradeSide) (sz startPosition : ℚ) :
    ((deriveFill side sz startPosition).effect = .open'
      ↔ |startPosition + fillDelta side sz| > |startPosition|)
    ∧ (startPosition + fillDelta side sz ≠ 0 →
        (deriveFill side sz startPosition).direction
          = sideFromSize (startPosition + fillDelta side sz))
    ∧ (startPosition + fillDelta side sz = 0 →
        (deriveFill side sz startPosition).direction = sideFromSize (fillDelta side sz)) := by
  refine ⟨?_, ?_, ?_⟩
  · rw [deriveFill_effect]
    split_ifs with h
    · simpa using h
    · constructor
      · intro hc; cases hc
      · intro hc; exact absurd hc h
  · intro hne
    rw [deriveFill_direction, if_neg hne]
  · intro h0
    rw [deriveFill_direction, if_pos h0]

theorem fillDelta_sell (sz : ℚ) : fillDelta .sell sz = -sz := rfl

theorem deriveFill_action (side : TradeSide) (sz sp : ℚ) :
    (deriveFill side sz sp).action =
      (if sp = 0 then (if fillDelta side sz > 0 then "Open Long" else "Open Short")
       else if sp > 0 then
         (if fillDelta side sz > 0 then "Increase Long"
          else (if sp + fillDelta side sz = 0 then "Close Long" else "Decrease Long"))
       else if sp < 0 then
         (if fillDelta side sz < 0 then "Increase Short"
          else (if sp + fillDelta side sz = 0 then "Close Short" else "Decrease Short"))
       else "") := by
  simp only [deriveFill, fillDelta]

/-- Claim C4: the action label follows the fixed decision table keyed by
(sign of starting position, sign of delta, whether the new position is
exactly zero): flat start opens long/short on the sign of the delta;
long start increases on a buy and closes/decreases on a sell depending on
whether the new position is exactly zero; symmetrically for a short start.
Includes the spec scenario `startPosition = 5, side = sell, size = 5`. -/
theorem fill_action_decision_table (side : TradeSide) (sz sp : ℚ) :
    (sp = 0 → (deriveFill side sz sp).action
        = (if fillDelta side sz > 0 then "Open Long" else "Open Short"))
    ∧ (sp > 0 → fillDelta side sz > 0 →
        (deriveFill side sz sp).action = "Increase Long")
    ∧ (sp > 0 → fillDelta side sz < 0 →
        (deriveFill side sz sp).action
          = (if sp + fillDelta side sz = 0 then "Close Long" else "Decrease Long"))
    ∧ (sp < 0 → fillDelta side sz < 0 →
        (deriveFill side sz sp).action = "Increase Short")
    ∧ (sp < 0 → fillDelta side sz > 0 →
        (deriveFill side sz sp).action
          = (if sp + fillDelta side sz = 0 then "Close Short" else "Decrease Short"))
    ∧ (deriveFill .sell 5 5).action = "Close Long"
    ∧ (deriveFill .sell 5 5).effect = .close := by
  refine ⟨?_, ?_, ?_, ?_, ?_,
    by rw [deriveFill_action, fillDelta_sell]; norm_num,
    by rw [deriveFill_effect, fillDelta_sell]; norm_num⟩
  · intro h0
    rw [deriveFill_action, if_pos h0]
  · intro hsp hd
    rw [deriveFill_action, if_neg (by linarith), if_pos hsp, if_pos hd]
  · intro hsp hd
    rw [deriveFill_action, if_neg (by linarith), if_pos hsp, if_neg (by linarith)]
  · intro hsp hd
    rw [deriveFill_action, if_neg (by linarith), if_neg (by linarith), if_pos hsp,
      if_pos hd]
  · intro hsp hd
    rw [deriveFill_action, if_neg (by linarith), if_neg (by linarith), if_pos hsp,
      if_neg (by linarith)]

/-- Claim C5: a clearinghouse notification whose parsed snapshot equals the
stored one field-by-field changes nothing: no event append, no persistence
write, stored snapshot and its update timestamp untouched. -/
theorem clearinghouse_noop_on_equal_snapshot (st : TrackerState) (addr : String)
    (stored parsed : PositionSnapshot) (ts now : String) (mark : Option ℚ)
    (hstored : st.snapshots addr = some (stored, ts))
    (hsize : stored.size = parsed.size)
    (hentry : stored.entryPriceUsd = parsed.entryPriceUsd)
    (hliq : stored.liquidationPriceUsd = parsed.liquidationPriceUsd)
    (hlev : stored.leverage = parsed.leverage) :
    onClearinghouseParsed st addr parsed now mark = st := by
  unfold onClearinghouseParsed
  rw [hstored]
  simp [hsize, hentry, hliq, hlev]

theorem clearinghouse_noop_witness :
    stA.snapshots "0xabc" = some (snapA, "t1")
    ∧ onClearinghouseParsed stA "0xabc" snapA "t2" (some 60000) = stA :=
  ⟨rfl, clearinghouse_noop_on_equal_snapshot stA "0xabc" snapA snapA "t1" "t2"
    (some 60000) rfl rfl rfl rfl rfl⟩

/-- Counterexample to claim C6: the priming pull path does NOT apply the
clearinghouse snapshot-diff logic — a priming pull whose parsed snapshot
equals the stored one still appends a position event and still records
both persistence writes. -/
theorem prime_appends_on_equal_snapshot_cex :
    stA.snapshots "0xabc" = some (snapA, "t1")
    ∧ (performPrimeParsed stA "0xabc" snapA "t2" none).q.buffer.length
        = stA.q.buffer.length + 1
    ∧ (performPrimeParsed stA "0xabc" snapA "t2" none).insertedEvents.length
        = stA.insertedEvents.length + 1
    ∧ (performPrimeParsed stA "0xabc" snapA "t2" none).upserts.length
        = stA.upserts.length + 1 := by
  refine ⟨rfl, ?_, rfl, rfl⟩
  rfl

/-- Claim C6 as amended: the priming pull path unconditionally stores the
parsed snapshot and appends a position event and the two persistence
writes — even when the parsed snapshot equals the stored one — and the
appended event carries PnL `size * (mark − entry)` when both entry price
and mark price are available, else null. -/
theorem prime_unconditional_append (st : TrackerState) (addr : String)
    (snap : PositionSnapshot) (now : String) (mark : Option ℚ) :
    (performPrimeParsed st addr snap now mark).snapshots addr = some (snap, now)
    ∧ (performPrimeParsed st addr snap now mark).insertedEvents
        = st.insertedEvents
          ++ [⟨st.q.nextSeq,
               positionEventPayload addr now snap
                 (computePnl snap.size snap.entryPriceUsd mark)⟩]
    ∧ (performPrimeParsed st addr snap now mark).upserts
        = st.upserts ++ [upsertRowOf addr now snap
            (computePnl snap.size snap.entryPriceUsd mark)]
    ∧ (performPrimeParsed st addr snap now mark).q.nextSeq = st.q.nextSeq + 1
    ∧ (∀ e m, snap.entryPriceUsd = some e → mark = some m →
        computePnl snap.size snap.entryPriceUsd mark = some (snap.size * (m - e)))
    ∧ ((snap.entryPriceUsd = none ∨ mark = none) →
        computePnl snap.size snap.entryPriceUsd mark = none) := by
  refine ⟨?_, rfl, rfl, rfl, ?_, ?_⟩
  · simp [performPrimeParsed]
  · intro e m he hm
    rw [he, hm]
    rfl
  · intro h
    rcases h with h | h
    · rw [h]
      cases mark <;> rfl
    · rw [h]
      cases snap.entryPriceUsd <;> rfl

/-- Claim C7: when a priming call for an address is in flight, a second
`primeFromHttp` call for that address returns the same pending outcome and
the same state — the underlying pull runs only once (over the two calls the
pull counter rises at most once, and exactly once when nothing was in
flight to begin with). -/
theorem prime_inflight_coalescing (st : TrackerState) (addr : String)
    (o₁ o₂ : PrimeOpts) (n₁ n₂ : Int) (t₁ : Nat) (st₁ : TrackerState)
    (h : primeFromHttp st addr o₁ n₁ = (.pending t₁, st₁)) :
    primeFromHttp st₁ addr o₂ n₂ = (.pending t₁, st₁)
    ∧ st₁.pullCount ≤ st.pullCount + 1
    ∧ (st.primeInflight addr = none → st₁.pullCount = st.pullCount + 1) := by
  have hin : st₁.primeInflight addr = some t₁ ∧
      (st₁.pullCount = st.pullCount ∨ st₁.pullCount = st.pullCount + 1) ∧
      (st.primeInflight addr = none → st₁.pullCount = st.pullCount + 1) := by
    rcases Option.eq_none_or_eq_some (st.primeInflight addr) with hfl | ⟨t, hfl⟩
    case inr =>
        simp only [primeFromHttp, hfl] at h
        rw [Prod.mk.injEq] at h
        obtain ⟨h1, h2⟩ := h
        injection h1 with ht
        subst h2; subst ht
        exact ⟨hfl, Or.inl rfl, fun hc => absurd hfl (by rw [hc]; intro hx; cases hx)⟩
    case inl =>
        simp only [primeFromHttp, hfl] at h
        split at h
        · rw [Prod.mk.injEq] at h
          exact absurd h.1 (by intro hx; cases hx)
        · rw [Prod.mk.injEq] at h
          obtain ⟨h1, h2⟩ := h
          injection h1 with ht
          subst ht
          rw [← h2]
          refine ⟨by simp, Or.inr rfl, fun _ => rfl⟩
  obtain ⟨h1, h2, h3⟩ := hin
  refine ⟨?_, by omega, h3⟩
  simp only [primeFromHttp, h1]

theorem prime_inflight_coalescing_witness :
    primeFromHttp stB "0xabc" {} 0
      = (.pending 0, (primeFromHttp stB "0xabc" {} 0).2)
    ∧ primeFromHttp (primeFromHttp stB "0xabc" {} 0).2 "0xabc" {} 5
        = (.pending 0, (primeFromHttp stB "0xabc" {} 0).2)
    ∧ ((primeFromHttp stB "0xabc" {} 0).2).pullCount ≤ stB.pullCount + 1 :=
  have h := prime_inflight_coalescing stB "0xabc" {} {} 0 5 0
    (primeFromHttp stB "0xabc" {} 0).2 rfl
  ⟨rfl, h.1, h.2.1⟩

theorem tradeLe_trans (a b c : TradeRow)
    (hab : tradeLe a b = true) (hbc : tradeLe b c = true) : tradeLe a c = true := by
  simp only [tradeLe, tradeCmp, decide_eq_true_eq] at *
  split_ifs at * <;> omega

theorem tradeLe_total (a b : TradeRow) : (tradeLe a b || tradeLe b a) = true := by
  simp only [tradeLe, tradeCmp, Bool.or_eq_true, decide_eq_true_eq]
  split_ifs <;> omega

theorem mem_dedupAdditions_not_seen (ts : List TradeRow) :
    ∀ (seen : List TradeKey) (b : TradeRow), b ∈ dedupAdditions seen ts →
      tradeKey b ∉ seen := by
  induction ts with
  | nil => intro seen b hb; cases hb
  | cons t ts ih =>
      intro seen b hb
      unfold dedupAdditions at hb
      split_ifs at hb with hmem
      · exact ih seen b hb
      · rcases List.mem_cons.mp hb with rfl | hb'
        · exact hmem
        · intro hc
          exact ih _ b hb' (List.mem_cons_of_mem _ hc)

theorem dedupAdditions_keys_pairwise (ts : List TradeRow) :
    ∀ (seen : List TradeKey),
      (dedupAdditions seen ts).Pairwise (fun a b => tradeKey a ≠ tradeKey b) := by
  induction ts with
  | nil => intro seen; exact List.Pairwise.nil
  | cons t ts ih =>
      intro seen
      unfold dedupAdditions
      split_ifs with hmem
      · exact ih seen
      · refine List.Pairwise.cons ?_ (ih _)
        intro b hb hc
        exact mem_dedupAdditions_not_seen ts _ b hb (by rw [← hc]; exact List.mem_cons_self _ _)

theorem keys_covered_after_dedup (ts : List TradeRow) :
    ∀ (seen : List TradeKey) (t : TradeRow), t ∈ ts →
      tradeKey t ∈ seen ∨ tradeKey t ∈ (dedupAdditions seen ts).map tradeKey := by
  induction ts with
  | nil => intro seen t ht; cases ht
  | cons t' ts ih =>
      intro seen t ht
      unfold dedupAdditions
      rcases List.mem_cons.mp ht with rfl | ht'
      · split_ifs with hmem
        · exact Or.inl hmem
        · exact Or.inr (by simp)
      · split_ifs with hmem
        · exact ih seen t ht'
        · rcases ih (tradeKey t' :: seen) t ht' with hseen | hadd
          · rcases List.mem_cons.mp hseen with heq | hs
            · exact Or.inr (by simp [heq])
            · exact Or.inl hs
          · exact Or.inr (by simp [hadd])

theorem dedupAdditions_eq_nil (ts : List TradeRow) (seen : List TradeKey)
    (h : ∀ t ∈ ts, tradeKey t ∈ seen) : dedupAdditions seen ts = [] := by
  induction ts with
  | nil => rfl
  | cons t ts ih =>
      unfold dedupAdditions
      rw [if_pos (h t (List.mem_cons_self _ _))]
      exact ih (fun t' ht' => h t' (List.mem_cons_of_mem _ ht'))

theorem mergeTrades_keys_cover (ex inc : List TradeRow) (t : TradeRow) (ht : t ∈ inc) :
    tradeKey t ∈ (mergeTrades ex inc).map tradeKey := by
  simp only [mergeTrades]
  split_ifs with hnil
  · rcases keys_covered_after_dedup inc (ex.map tradeKey) t ht with h | h
    · exact h
    · rw [hnil] at h; cases h
  · have hperm := (List.mergeSort_perm (ex ++ dedupAdditions (ex.map tradeKey) inc) tradeLe).map tradeKey
    rw [hperm.mem_iff, List.map_append, List.mem_append]
    rcases keys_covered_after_dedup inc (ex.map tradeKey) t ht with h | h
    · exact Or.inl h
    · exact Or.inr h

theorem mergeTrades_of_covered (ex inc : List TradeRow)
    (h : ∀ t ∈ inc, tradeKey t ∈ ex.map tradeKey) : mergeTrades ex inc = ex := by
  have hnil := dedupAdditions_eq_nil inc (ex.map tradeKey) h
  simp only [mergeTrades, hnil, if_pos]

/-- Claim C8: on individually duplicate-free, descending-ordered inputs,
`mergeTrades` is idempotent (re-merging the same incoming batch is a
no-op), its result is sorted descending by (time, id), the result is
duplicate-free under the derived identity key, and that key prefers a
truthy `tx`, then a truthy `hash`, then a non-null `id`, then the
composite of (time, address, size, price). -/
theorem mergeTrades_idem_sorted_dedup (ex inc : List TradeRow)
    (hExKeys : ex.Pairwise (fun a b => tradeKey a ≠ tradeKey b))
    (_hIncKeys : inc.Pairwise (fun a b => tradeKey a ≠ tradeKey b))
    (hExSorted : ex.Pairwise (fun a b => tradeLe a b = true))
    (_hIncSorted : inc.Pairwise (fun a b => tradeLe a b = true)) :
    mergeTrades (mergeTrades ex inc) inc = mergeTrades ex inc
    ∧ (mergeTrades ex inc).Pairwise (fun a b => tradeLe a b = true)
    ∧ (mergeTrades ex inc).Pairwise (fun a b => tradeKey a ≠ tradeKey b)
    ∧ (∀ (t : TradeRowLoose) (s : String), t.tx = some s → s ≠ "" →
        tradeKeyLoose t = .txKey s.toLower)
    ∧ (∀ (t : TradeRowLoose) (s : String), (t.tx = none ∨ t.tx = some "") →
        t.hash = some s → s ≠ "" → tradeKeyLoose t = .txKey s.toLower)
    ∧ (∀ (t : TradeRowLoose) (i : Int), (t.tx = none ∨ t.tx = some "") →
        (t.hash = none ∨ t.hash = some "") → t.id = some i →
        tradeKeyLoose t = .idKey i)
    ∧ (∀ (t : TradeRowLoose), (t.tx = none ∨ t.tx = some "") →
        (t.hash = none ∨ t.hash = some "") → t.id = none →
        tradeKeyLoose t = .compKey t.time t.address t.size t.price) := by
  refine ⟨?_, ?_, ?_, ?_, ?_, ?_, ?_⟩
  · exact mergeTrades_of_covered (mergeTrades ex inc) inc
      (fun t ht => mergeTrades_keys_cover ex inc t ht)
  · simp only [mergeTrades]
    split_ifs with hnil
    · exact hExSorted
    · exact List.sorted_mergeSort tradeLe_trans tradeLe_total _
  · simp only [mergeTrades]
    split_ifs with hnil
    · exact hExKeys
    · have hperm := List.mergeSort_perm (ex ++ dedupAdditions (ex.map tradeKey) inc) tradeLe
      refine (List.Perm.pairwise_iff (fun h e => h e.symm) hperm).mpr ?_
      rw [List.pairwise_append]
      refine ⟨hExKeys, dedupAdditions_keys_pairwise _ _, ?_⟩
      intro a ha b hb hc
      exact mem_dedupAdditions_not_seen inc _ b hb
        (by rw [← hc]; exact List.mem_map_of_mem tradeKey ha)
  · intro t s htx hs
    simp only [tradeKeyLoose, truthy, htx, if_neg hs]
  · intro t s htx hh hs
    rcases htx with htx | htx <;>
      simp [tradeKeyLoose, truthy, htx, hh, hs]
  · intro t i htx hh hid
    rcases htx with htx | htx <;> rcases hh with hh | hh <;>
      simp [tradeKeyLoose, truthy, htx, hh, hid]
  · intro t htx hh hid
    rcases htx with htx | htx <;> rcases hh with hh | hh <;>
      simp [tradeKeyLoose, truthy, htx, hh, hid]

theorem mergeTrades_idem_sorted_dedup_witness :
    mergeTrades (mergeTrades [rowX] [rowY]) [rowY] = mergeTrades [rowX] [rowY]
    ∧ (mergeTrades [rowX] [rowY]).Pairwise (fun a b => tradeLe a b = true) :=
  have h := mergeTrades_idem_sorted_dedup [rowX] [rowY]
    (by simp) (by simp) (by simp) (by simp)
  ⟨h.1, h.2.1⟩

theorem findIdx_drop_eq_dropWhile {β : Type} (p : β → Bool) (xs : List β) :
    (match xs.findIdx? p with
     | none => ([] : List β)
     | some i => xs.drop i) = xs.dropWhile (fun a => !p a) := by
  induction xs with
  | nil => rfl
  | cons x xs ih =>
      by_cases hp : p x
      · rw [List.findIdx?_cons, if_pos hp, List.dropWhile_cons, if_neg (by simp [hp])]
        rfl
      · rw [List.findIdx?_cons, if_neg hp, List.findIdx?_succ,
          List.dropWhile_cons, if_pos (by simp [hp]), ← ih]
        cases hfi : xs.findIdx? p with
        | none => rfl
        | some j => simp

theorem listSince_eq_dropWhile (q : EventQueue α) (s l : Int) :
    q.listSince s l
      = (q.buffer.dropWhile (fun e => !decide ((e.seq : Int) > s))).take
          (max 1 (min 1000 l)).toNat := by
  rw [← findIdx_drop_eq_dropWhile (fun e : Seqed α => decide ((e.seq : Int) > s)) q.buffer]
  unfold EventQueue.listSince
  cases q.buffer.findIdx? (fun e : Seqed α => decide ((e.seq : Int) > s)) <;> simp

theorem mem_dropWhile_gt (s : Int) (l : List (Seqed α))
    (hsorted : l.Pairwise (fun a b => a.seq < b.seq)) :
    ∀ e ∈ l.dropWhile (fun a => !decide ((a.seq : Int) > s)), (e.seq : Int) > s := by
  induction l with
  | nil => intro e he; cases he
  | cons x xs ih =>
      intro e he
      rw [List.dropWhile_cons] at he
      by_cases hx : (x.seq : Int) > s
      · rw [if_neg (by simp [hx])] at he
        rcases List.mem_cons.mp he with rfl | he'
        · exact hx
        · have := (List.pairwise_cons.mp hsorted).1 e he'
          have : (x.seq : Int) < (e.seq : Int) := by exact_mod_cast this
          omega
      · rw [if_pos (by simp [hx])] at he
        exact ih (List.pairwise_cons.mp hsorted).2 e he

theorem pushAll_buffer_sorted (α : Type) (c : Nat) (es : List α) :
    ((EventQueue.make α c).pushAll es).buffer.Pairwise (fun a b => a.seq < b.seq) := by
  obtain ⟨s', h1, _, _, _⟩ := (EventQueue.make α c).pushAll_spec es 1
    (by simp [EventQueue.make]) (by simp [EventQueue.make]) (by simp [EventQueue.make])
  have := h1 ▸ List.pairwise_lt_range' s' ((EventQueue.make α c).pushAll es).buffer.length 1
  exact List.pairwise_map.mp this

/-- Claim C9: `listSince s limit` returns only events with sequence number
strictly greater than `s`, never more than the hard cap of 1000 events
regardless of the requested limit, and when every retained event is newer
than `s` (i.e. `s` is older than the oldest retained entry) it returns the
earliest available events — the front of the buffer — rather than an
error. -/
theorem listSince_window (q : EventQueue α) (s l : Int)
    (hsorted : q.buffer.Pairwise (fun a b => a.seq < b.seq)) :
    (∀ e ∈ q.listSince s l, (e.seq : Int) > s)
    ∧ (q.listSince s l).length ≤ 1000
    ∧ (q.buffer ≠ [] → (∀ e ∈ q.buffer, (e.seq : Int) > s) →
        q.listSince s l = q.buffer.take (max 1 (min 1000 l)).toNat) := by
  refine ⟨?_, ?_, ?_⟩
  · intro e he
    rw [listSince_eq_dropWhile] at he
    exact mem_dropWhile_gt s q.buffer hsorted e (List.take_subset _ _ he)
  · rw [listSince_eq_dropWhile, List.length_take]
    have : (max 1 (min 1000 l)).toNat ≤ 1000 := by omega
    omega
  · intro hne hall
    rw [listSince_eq_dropWhile]
    cases hb : q.buffer with
    | nil => exact absurd hb hne
    | cons x xs =>
        rw [List.dropWhile_cons, if_neg]
        simp only [Bool.not_eq_true', decide_eq_false_iff_not, not_not]
        exact hall x (by rw [hb]; exact List.mem_cons_self _ _)

theorem dropWhile_ne_nil_of_mem {β : Type} (p : β → Bool) (l : List β) (e : β)
    (he : e ∈ l) (hp : p e = true) : l.dropWhile (fun a => !p a) ≠ [] := by
  induction l with
  | nil => cases he
  | cons x xs ih =>
      rw [List.dropWhile_cons]
      by_cases hx : p x
      · rw [if_neg (by simp [hx])]
        exact List.cons_ne_nil _ _
      · rw [if_pos (by simp [hx])]
        rcases List.mem_cons.mp he with rfl | he'
        · exact absurd hp (by simp [hx])
        · exact ih he'

/-- Claim C10: a requested limit of at most 0 is clamped up to 1 — when some
retained event has sequence number greater than `s`, `listSince s limit`
returns exactly one event. -/
theorem listSince_limit_clamped (q : EventQueue α) (s l : Int)
    (hl : l ≤ 0) (e₀ : Seqed α) (he₀ : e₀ ∈ q.buffer) (hgt : (e₀.seq : Int) > s) :
    (q.listSince s l).length = 1 := by
  have hk : (max 1 (min 1000 l)).toNat = 1 := by omega
  rw [listSince_eq_dropWhile, hk, List.length_take]
  have hne : q.buffer.dropWhile (fun a => !decide ((a.seq : Int) > s)) ≠ [] :=
    dropWhile_ne_nil_of_mem _ q.buffer e₀ he₀ (decide_eq_true hgt)
  have := List.length_pos.mpr hne
  omega

theorem listSince_window_witness :
    qC.buffer.Pairwise (fun a b => a.seq < b.seq)
    ∧ (∀ e ∈ qC.listSince 1 2, (e.seq : Int) > 1)
    ∧ (qC.listSince 1 2).length ≤ 1000 :=
  have h := listSince_window qC 1 2 (by decide)
  ⟨by decide, h.1, h.2.1⟩

theorem listSince_limit_clamped_witness :
    ((2 : Int) ≤ 0 → False)
    ∧ (0 : Int) ≤ 0
    ∧ (⟨1, ()⟩ : Seqed Unit) ∈ qC.buffer
    ∧ ((1 : Nat) : Int) > 0
    ∧ (qC.listSince 0 0).length = 1 :=
  ⟨by decide, le_refl 0, by decide, by decide,
    listSince_limit_clamped qC 0 0 (le_refl 0) ⟨1, ()⟩ (by decide) (by decide)⟩

end Hlbot
